import Mathlib

/-!
# A verification development for the sulfur `.slf` archive codec

This file gives a shallow embedding of the pack/unpack codec of the
sulfur archiver (`src/pack.rs`, `src/unpack.rs`, `src/error.rs`,
`src/main.rs`) and proves properties of it.

Modelling conventions:

* Byte streams are `List Nat` (each element a byte value); files on disk are
  pairs of a path and a content byte list.  Reading from a stream is
  explicit state passing on the remaining list.
* The deflate/gzip transform and the CRC32 hash are external collaborators
  of the crate (the `flate2` crate); they are modelled as an opaque `Codec`
  record of total functions, with the round-trip and range facts the
  surrounding code relies on stated as hypotheses where needed.
* Machine integers are `Nat` with explicit `% 2^w` at the points where the
  code serializes them into fixed-width little-endian fields.
* Filesystem side effects are reduced to their data content: `pack`
  produces the archive byte list, `unpack` produces the list of
  (destination path, file content) pairs it writes, in order, together
  with the error that aborted it, if any.  Directory creation
  (`create_dir_all`) has no data content and is not tracked, and the
  filesystem validity checks on the source and target paths
  (`get_archive_path`, `get_extraction_path`) are assumed to have passed.
* A few items of the crate root are not present under `src/` (only the
  historical prototype `main.rs` is); they are modelled from the spec and
  carry a doc comment saying so.
-/

set_option autoImplicit false

namespace Sulfur

/-! ## Little-endian byte serialization (`to_le_bytes` / `from_le_bytes`) -/

/-- The `k`-byte little-endian encoding of `n`, as produced by Rust's
`to_le_bytes` (the value is implicitly reduced `mod 2^(8k)`). -/
def toLE : Nat → Nat → List Nat
  | 0, _ => []
  | k + 1, n => n % 256 :: toLE k (n / 256)

/-- Little-endian decoding of a byte list (`from_le_bytes`). -/
def fromLE (l : List Nat) : Nat := l.foldr (fun b acc => b + 256 * acc) 0

/-- Rust `u32::to_le_bytes`. -/
def u32LE (n : Nat) : List Nat := toLE 4 n

/-- Rust `u64::to_le_bytes`. -/
def u64LE (n : Nat) : List Nat := toLE 8 n

@[simp] theorem length_toLE (k n : Nat) : (toLE k n).length = k := by
  induction k generalizing n with
  | zero => rfl
  | succ k ih => simp [toLE, ih]

@[simp] theorem length_u32LE (n : Nat) : (u32LE n).length = 4 := length_toLE 4 n

@[simp] theorem length_u64LE (n : Nat) : (u64LE n).length = 8 := length_toLE 8 n

theorem fromLE_toLE (k n : Nat) : fromLE (toLE k n) = n % 256 ^ k := by
  induction k generalizing n with
  | zero => simp [toLE, fromLE, Nat.mod_one]
  | succ k ih =>
    have h : (256 : Nat) ^ (k + 1) = 256 * 256 ^ k := by ring
    simp only [toLE, fromLE, List.foldr] at *
    rw [ih (n / 256), h, Nat.mod_mul]

theorem fromLE_toLE_of_lt {k n : Nat} (h : n < 256 ^ k) : fromLE (toLE k n) = n := by
  rw [fromLE_toLE, Nat.mod_eq_of_lt h]

theorem fromLE_u32LE {n : Nat} (h : n < 2 ^ 32) : fromLE (u32LE n) = n :=
  fromLE_toLE_of_lt (by norm_num at h ⊢; exact h)

theorem fromLE_u64LE {n : Nat} (h : n < 2 ^ 64) : fromLE (u64LE n) = n :=
  fromLE_toLE_of_lt (by norm_num at h ⊢; exact h)

/-! ## Process-wide constants -/

/-- The 4-byte magic signature `b".slf"` (`main.rs`: `const SIGNATURE`). -/
def SIGNATURE : List Nat := [46, 115, 108, 102]

/-- The fixed chunk buffer size, 64 KiB (`main.rs`: `const BUFFER_SIZE`). -/
def BUFFER_SIZE : Nat := 64 * 1024

/-- Modelled from the spec: the crate-root constant `VERSION` (a
major.minor byte pair; `error.rs` and `pack.rs` import it from the crate
root, which is not under `src/`).  Only its first byte — the supported
major version — is ever compared; the concrete value is irrelevant to
every theorem below. -/
def VERSION : List Nat := [1, 0]

/-! ## Error taxonomy (`error.rs`) -/

/-- The error type `ArchiveError` from `src/error.rs` (the payload strings of the model
carry the fixed part of the formatted messages). -/
inductive ArchiveError where
  | Io : String → ArchiveError
  | Path : String → ArchiveError
  | IncorrectType : String → ArchiveError
  | UnsupportedVersion : Nat → ArchiveError
  | BufferOverflow : Nat → ArchiveError
  | CorruptedArchive : String → ArchiveError
  | EmptyFilename : ArchiveError
  | TryFromSlice : String → ArchiveError
  | TryFromInt : String → ArchiveError
deriving DecidableEq, Repr

/-- Message used by `validate_archive` for both a bad signature and a bad
version (`unpack.rs` lines 57 and 65). -/
def corruptTypeMsg : String := "File is corrupted or has incorrect type"

/-- Message skeleton of the two checksum-mismatch errors
(`unpack.rs` lines 104 and 111). -/
def checksumErrMsg : String := "Archive corrupted! Unpacked checksums is not equal"

/-- Message skeleton of the size-mismatch error (`unpack.rs` line 119). -/
def sizeErrMsg : String := "Archive corrupted! Unpacked file has another size"

/-- Message for a read that could not fill the requested buffer
(`io::Error` converted by `From<io::Error>` in `error.rs`). -/
def ioErrMsg : String := "failed to fill whole buffer"

/-- Message for a file count that does not fit in `u32`
(`TryFromIntError` converted in `error.rs`). -/
def intErrMsg : String := "out of range integral type conversion attempted"

/-! ## The opaque compression/checksum collaborator -/

/-- The external stream transform and rolling hash used by the codec
(`flate2::write::GzEncoder` / `GzDecoder` / `Crc`), abstracted as total
functions on whole byte streams.  Chunked feeding in the code concatenates
the chunks, so a function of the concatenation is the faithful view. -/
structure Codec where
  compress : List Nat → List Nat
  decompress : List Nat → List Nat
  crc : List Nat → Nat

/-- The facts about the collaborator that the codec relies on:
decompression inverts compression, and CRC32 values fit in `u32`. -/
def goodCodec (codec : Codec) : Prop :=
  (∀ x, codec.decompress (codec.compress x) = x) ∧ (∀ x, codec.crc x < 2 ^ 32)

/-! ## Paths

Paths are sequences of byte-string components plus an absolute flag,
mirroring `std::path::PathBuf` on Unix (`OsString` bytes, components
separated by `/`). -/

/-- A filesystem path: an absolute flag and the list of components,
each a byte string. -/
structure FsPath where
  absolute : Bool
  components : List (List Nat)
deriving DecidableEq, Repr

/-- Render a relative path into the byte string stored in an archive
(components joined by `/`, byte 47), as `to_string_lossy` produces for the
`strip_prefix` result at pack time. -/
def renderComponents : List (List Nat) → List Nat
  | [] => []
  | [c] => c
  | c :: rest => c ++ 47 :: renderComponents rest

/-- The stored name bytes of a pack-time relative path. -/
def renderPath (p : FsPath) : List Nat := renderComponents p.components

/-- Split a byte string on `/` (byte 47); auxiliary for `parsePath`. -/
def splitSep : List Nat → List Nat → List (List Nat)
  | acc, [] => [acc.reverse]
  | acc, b :: rest =>
    if b = 47 then acc.reverse :: splitSep [] rest else splitSep (b :: acc) rest

/-- Interpret a stored byte string as a path, as `PathBuf::From<OsString>`
plus `Path::components` does: split on `/`, drop empty pieces, absolute iff
the first byte is `/`. -/
def parsePath (bytes : List Nat) : FsPath :=
  ⟨bytes.headI == 47, (splitSep [] bytes).filter (fun c => c ≠ [])⟩

/-- Rust `PathBuf::join`: an absolute right operand replaces the left one. -/
def joinPath (p q : FsPath) : FsPath :=
  if q.absolute then q else ⟨p.absolute, p.components ++ q.components⟩

/-- One step of path simplification; the stack is kept reversed.
`.` is dropped; `..` pops the last pushed ordinary component, never pops
past the root of an absolute path, and is itself pushed when nothing is
poppable on a relative path. -/
def normPush (abs : Bool) (rstack : List (List Nat)) (c : List Nat) : List (List Nat) :=
  if c = [46] then rstack
  else if c = [46, 46] then
    match rstack with
    | [] => if abs then [] else [[46, 46]]
    | top :: rs => if top = [46, 46] then [46, 46] :: top :: rs else rs
  else c :: rstack

/-- Modelled from the spec: the crate-root function `normalize_path`
(imported by `pack.rs` and `unpack.rs` from the crate root, which is not
under `src/`): pure, filesystem-independent left-to-right path
simplification, following section 4.1 of the design.  Note its result type
is a plain path — `unpack.rs` line 88 uses the returned value directly, so
the function has no error channel. -/
def normalize_path (p : FsPath) : FsPath :=
  ⟨p.absolute, (p.components.foldl (normPush p.absolute) []).reverse⟩

/-! ## The tee writer (`HasherWriter`, `main.rs` lines 65–88)

A `Write` sink may accept only part of the buffer handed to a single
`write` call; the state of the underlying sink is modelled as a list of
per-call acceptance capacities together with the bytes it has accepted so
far.  The CRC32 accumulator state is modelled as the byte sequence hashed
so far (CRC32 itself being an opaque function of that sequence). -/

/-- State of the underlying byte sink wrapped by `HasherWriter`. -/
structure SinkState where
  caps : List Nat
  received : List Nat
deriving DecidableEq, Repr

/-- One `write` call on the underlying sink: it accepts a prefix of the
buffer (bounded by the current capacity; with no capacity constraint left
it accepts everything) and returns the accepted count. -/
def sinkWrite (s : SinkState) (buf : List Nat) : Nat × SinkState :=
  match s.caps with
  | [] => (buf.length, ⟨[], s.received ++ buf⟩)
  | c :: rest => (min c buf.length, ⟨rest, s.received ++ buf.take (min c buf.length)⟩)

/-- The tee writer `HasherWriter` (`main.rs` lines 65–68): a writer plus a CRC32
accumulator. -/
structure HasherWriter where
  hashed : List Nat
  sink : SinkState
deriving DecidableEq, Repr

/-- The method `HasherWriter::write` (`main.rs` lines 80–83):
`self.hasher.update(buf); self.writer.write(buf)` — the accumulator is
updated with the whole buffer, then the buffer is handed to the sink, and
the sink's count is returned unchanged. -/
def HasherWriter.write (w : HasherWriter) (buf : List Nat) : Nat × HasherWriter :=
  ((sinkWrite w.sink buf).1, ⟨w.hashed ++ buf, (sinkWrite w.sink buf).2⟩)

/-- The method `HasherWriter::sum` (`main.rs` lines 75–77): the CRC32 of everything
fed to the accumulator. -/
def HasherWriter.sum (codec : Codec) (w : HasherWriter) : Nat := codec.crc w.hashed

/-- A fresh `HasherWriter` over a sink with the given capacities. -/
def initHW (caps : List Nat) : HasherWriter := ⟨[], ⟨caps, []⟩⟩

/-- A sequence of raw `write` calls. -/
def runWrites (w : HasherWriter) (bufs : List (List Nat)) : HasherWriter :=
  bufs.foldl (fun w b => (w.write b).2) w

/-! ## Archive writer (`pack.rs`)

The source enumeration (`collect_files` / `inner_files`) is an external
directory walk; its result — the ordered list of files, each with its
relative name below the source root and its content — is the input of the
model.  The seekable output stream is the byte list being built; a
seek-and-rewrite is `writeAt`. -/

/-- One source file as enumerated at pack time: its relative name below
the source root (`strip_prefix` result, or the file name for a single-file
source) and its content bytes. -/
structure PackFile where
  name : FsPath
  content : List Nat

/-- The fixed leading part of an entry's metadata block:
name length (u32 LE), name bytes, original size (u64 LE). -/
def metaPre (nameB : List Nat) (osize : Nat) : List Nat :=
  u32LE nameB.length ++ nameB ++ u64LE osize

/-- The backpatched tail of an entry's metadata block: compressed size
(u64 LE), original checksum (u32 LE), compressed checksum (u32 LE) —
exactly the 16 bytes `rewrite_temp_fields` writes (`pack.rs` 210–212). -/
def metaPatch (csize ock cck : Nat) : List Nat :=
  u64LE csize ++ u32LE ock ++ u32LE cck

/-- A full entry metadata block (section 6 of the design):
`name_len(u32) name original_size(u64) compressed_size(u64)
original_checksum(u32) compressed_checksum(u32)`. -/
def metaBlock (nameB : List Nat) (osize csize ock cck : Nat) : List Nat :=
  metaPre nameB osize ++ metaPatch csize ock cck

/-- Modelled from the spec: the placeholder metadata block emitted by the
missing `InnerFile::write_metadata` (crate root, not under `src/`) —
original size known, compressed size and checksums zeroed (section 4.4
step 4). -/
def write_metadata (nameB : List Nat) (osize : Nat) : List Nat :=
  metaBlock nameB osize 0 0 0

/-- Everything `process_files` records about one written entry: the stored
name bytes, original size, compressed payload, the two checksums, and the
stream position where the entry's metadata block starts (kept in the
`InnerFile` for the trailing index; the backpatch position of
`metaPatch` is `position + 12 + nameB.length`). -/
structure PackedEntry where
  nameB : List Nat
  osize : Nat
  payload : List Nat
  ock : Nat
  cck : Nat
  position : Nat
deriving DecidableEq, Repr

/-- The bytes an entry occupies right after the first pass (placeholder
metadata followed by the compressed payload). -/
def rawBlock (e : PackedEntry) : List Nat :=
  write_metadata e.nameB e.osize ++ e.payload

/-- The bytes an entry occupies after backpatching. -/
def finalBlock (e : PackedEntry) : List Nat :=
  metaBlock e.nameB e.osize e.payload.length e.ock e.cck ++ e.payload

/-- The record built for one source file at stream position `pos`:
original size and checksum from the raw content, compressed payload,
size and checksum from the compression pass (`process_single_file`). -/
def mkEntry (codec : Codec) (pos : Nat) (f : PackFile) : PackedEntry :=
  ⟨renderPath f.name, f.content.length, codec.compress f.content,
    codec.crc f.content, codec.crc (codec.compress f.content), pos⟩

/-- The function `process_files` (`pack.rs` 123–147) plus the per-entry
`write_metadata` / `process_single_file` work: starting at stream position
`pos`, write each entry's placeholder metadata and compressed payload and
record the entry bookkeeping.  Modelled from the spec where the missing
`write_metadata` is concerned: a relative name longer than the fixed
buffer is a hard `BufferOverflow` error (section 4.4). -/
def process_files (codec : Codec) (pos : Nat) :
    List PackFile → Except ArchiveError (List Nat × List PackedEntry)
  | [] => .ok ([], [])
  | f :: fs =>
    if BUFFER_SIZE < (renderPath f.name).length then
      .error (.BufferOverflow (renderPath f.name).length)
    else
      match process_files codec (pos + (rawBlock (mkEntry codec pos f)).length) fs with
      | .error err => .error err
      | .ok (body, es) => .ok (rawBlock (mkEntry codec pos f) ++ body, mkEntry codec pos f :: es)

/-- Overwrite the bytes of `s` at position `pos` with `d`
(a seek-and-rewrite on the output stream). -/
def writeAt (s : List Nat) (pos : Nat) (d : List Nat) : List Nat :=
  s.take pos ++ d ++ s.drop (pos + d.length)

/-- One backpatch of `rewrite_temp_fields` (`pack.rs` 206–214): seek to
the entry's recorded position of the compressed-size field and write the
real compressed size and both checksums. -/
def patchEntry (s : List Nat) (e : PackedEntry) : List Nat :=
  writeAt s (e.position + 12 + e.nameB.length) (metaPatch e.payload.length e.ock e.cck)

/-- The function `rewrite_temp_fields` (`pack.rs` 196–217): record the current end of
stream as the index offset at header offset 10, then backpatch every
entry, then seek back to the end. -/
def rewrite_temp_fields (s : List Nat) (es : List PackedEntry) : List Nat :=
  es.foldl patchEntry (writeAt s 10 (u64LE s.length))

/-- The function `write_index_array` (`pack.rs` 219–226): append each entry's metadata
position as a u64 LE, in entry order. -/
def write_index_array (es : List PackedEntry) : List Nat :=
  (es.map (fun e => u64LE e.position)).flatten

/-- The function `pack` (`pack.rs` 18–53), as a function from the enumerated source
files to the archive bytes: header (signature, version, file count as
`u32::try_from`, zero index-offset placeholder), first-pass entry blocks,
backpatch pass, trailing index array. -/
def pack (codec : Codec) (files : List PackFile) : Except ArchiveError (List Nat) :=
  if 2 ^ 32 ≤ files.length then .error (.TryFromInt intErrMsg)
  else
    match process_files codec 18 files with
    | .error e => .error e
    | .ok (body, es) =>
      .ok (rewrite_temp_fields (SIGNATURE ++ VERSION ++ u32LE files.length ++ u64LE 0 ++ body) es
            ++ write_index_array es)

/-- The entry bookkeeping `process_files` produces on success, computed
directly (used to state what `pack` writes). -/
def entriesOf (codec : Codec) : Nat → List PackFile → List PackedEntry
  | _, [] => []
  | pos, f :: fs =>
    mkEntry codec pos f :: entriesOf codec (pos + (rawBlock (mkEntry codec pos f)).length) fs

/-- First-pass bytes of a list of entries. -/
def rawBody (es : List PackedEntry) : List Nat := (es.map rawBlock).flatten

/-- Backpatched bytes of a list of entries. -/
def finalBody (es : List PackedEntry) : List Nat := (es.map finalBlock).flatten

/-- The archive header with all fields final. -/
def headerBytes (count endPos : Nat) : List Nat :=
  SIGNATURE ++ VERSION ++ u32LE count ++ u64LE endPos

/-- The archive `pack` produces, described directly: final header, final
entry blocks, index array. -/
def packFinal (codec : Codec) (files : List PackFile) : List Nat :=
  headerBytes files.length (18 + (finalBody (entriesOf codec 18 files)).length)
    ++ finalBody (entriesOf codec 18 files) ++ write_index_array (entriesOf codec 18 files)

/-! ## Archive reader (`unpack.rs`) -/

/-- Rust `Read::read_exact` on the stream: take exactly `k` bytes or fail with
the standard I/O error. -/
def read_exact (k : Nat) (s : List Nat) : Except ArchiveError (List Nat × List Nat) :=
  if k ≤ s.length then .ok (s.take k, s.drop k) else .error (.Io ioErrMsg)

/-- The function `validate_archive` (`unpack.rs` 54–71): read and check the 4-byte
signature, then read 2 version bytes and check the major byte; both
failures are `ArchiveError::Path` with the corrupted-or-incorrect-type
message. -/
def validate_archive (s : List Nat) : Except ArchiveError (List Nat) :=
  match read_exact 4 s with
  | .error e => .error e
  | .ok (sig, s) =>
    if sig ≠ SIGNATURE then .error (.Path corruptTypeMsg)
    else
      match read_exact 2 s with
      | .error e => .error e
      | .ok (ver, s) =>
        if ver.headI ≠ VERSION.headI then .error (.Path corruptTypeMsg)
        else .ok s

/-- The entry metadata as read back at unpack time (the fields of the
crate-root `InnerFile` that `unpack_files` uses). -/
structure InnerFile where
  name : List Nat
  original_size : Nat
  compressed_size : Nat
  original_checksum : Nat
  compressed_checksum : Nat
deriving DecidableEq, Repr

/-- Modelled from the spec: the missing `InnerFile::from_archive` (crate
root, not under `src/`), following section 4.3 and the section 6 layout:
read name length (u32 LE); fail with `BufferOverflow` if it exceeds the
bounded read buffer and with `EmptyFilename` if it is zero; then read the
name bytes, original size (u64 LE), compressed size (u64 LE), original
checksum (u32 LE) and compressed checksum (u32 LE), failing with an I/O
error on truncated reads. -/
def from_archive (s : List Nat) : Except ArchiveError (InnerFile × List Nat) :=
  match read_exact 4 s with
  | .error e => .error e
  | .ok (nl, s) =>
    if BUFFER_SIZE < fromLE nl then .error (.BufferOverflow (fromLE nl))
    else if fromLE nl = 0 then .error .EmptyFilename
    else
      match read_exact (fromLE nl) s with
      | .error e => .error e
      | .ok (name, s) =>
        match read_exact 8 s with
        | .error e => .error e
        | .ok (os, s) =>
          match read_exact 8 s with
          | .error e => .error e
          | .ok (cs, s) =>
            match read_exact 4 s with
            | .error e => .error e
            | .ok (oc, s) =>
              match read_exact 4 s with
              | .error e => .error e
              | .ok (cc, s) =>
                .ok (⟨name, fromLE os, fromLE cs, fromLE oc, fromLE cc⟩, s)

/-- The decompression loop of `unpack_single_file` (`unpack.rs` 162–178):
chunked reads of at most `min remaining BUFFER_SIZE` bytes, stopping at a
zero-byte read, decrementing the remaining budget by the bytes obtained.
Returns the consumed payload bytes (the concatenation of the chunks fed
through the checksum and the decoder) and the rest of the stream.  A read
returns `min requested available` bytes. -/
def read_payload (remaining : Nat) (s : List Nat) : List Nat × List Nat :=
  if _h : min (min remaining BUFFER_SIZE) s.length = 0 then ([], s)
  else
    match read_payload (remaining - min (min remaining BUFFER_SIZE) s.length)
        (s.drop (min (min remaining BUFFER_SIZE) s.length)) with
    | (c, r) => (s.take (min (min remaining BUFFER_SIZE) s.length) ++ c, r)
termination_by s.length
decreasing_by simp only [List.length_drop]; omega

/-- The destination path of one entry (`unpack_files`, `unpack.rs` 82–88):
joined under the extraction directory when the archive holds more than one
file, the raw stored name otherwise, then normalized. -/
def entryDest (fileCount : Nat) (dirPath : FsPath) (nameB : List Nat) : FsPath :=
  normalize_path (if 1 < fileCount then joinPath dirPath (parsePath nameB) else parsePath nameB)

/-- The function `unpack_files` (`unpack.rs` 73–126) with `unpack_single_file` inlined:
for each of the remaining `k` entries, decode the metadata, compute and
normalize the destination path, create the file and stream-decompress the
payload into it, then verify the decompressed checksum, the compressed
checksum, and the decompressed byte count against the stored fields — any
mismatch is a `CorruptedArchive` error that stops the loop.  Returns the
(path, content) pairs written, in order, and the aborting error if any. -/
def unpack_files (codec : Codec) (fileCount : Nat) (dirPath : FsPath) :
    Nat → List Nat → List (FsPath × List Nat) × Option ArchiveError
  | 0, _ => ([], none)
  | k + 1, s =>
    match from_archive s with
    | .error e => ([], some e)
    | .ok (inner, s) =>
      let path := entryDest fileCount dirPath inner.name
      let pr := read_payload inner.compressed_size s
      let content := codec.decompress pr.1
      if codec.crc content ≠ inner.original_checksum then
        ([(path, content)], some (.CorruptedArchive checksumErrMsg))
      else if codec.crc pr.1 ≠ inner.compressed_checksum then
        ([(path, content)], some (.CorruptedArchive checksumErrMsg))
      else if inner.original_size ≠ content.length then
        ([(path, content)], some (.CorruptedArchive sizeErrMsg))
      else
        match unpack_files codec fileCount dirPath k pr.2 with
        | (ws, e) => ((path, content) :: ws, e)

/-- The function `unpack` (`unpack.rs` 15–52), as a function of the archive bytes, the
archive file's stem and the (already resolved) target directory: validate
signature and version, read the file count, skip the index offset, pick
the extraction directory (a stem-named subdirectory when the count exceeds
one), then extract the entries. -/
def unpack (codec : Codec) (sourceStem : List Nat) (target : FsPath) (s : List Nat) :
    List (FsPath × List Nat) × Option ArchiveError :=
  match validate_archive s with
  | .error e => ([], some e)
  | .ok s =>
    match read_exact 4 s with
    | .error e => ([], some e)
    | .ok (cnt, s) =>
      match read_exact 8 s with
      | .error e => ([], some e)
      | .ok (_, s) =>
        let dirPath :=
          if 1 < fromLE cnt then
            joinPath (normalize_path target) ⟨false, [sourceStem]⟩
          else
            normalize_path target
        unpack_files codec (fromLE cnt) dirPath (fromLE cnt) s

/-! ## Well-formedness predicates used as hypotheses -/

/-- A clean path component: nonempty, no separator byte, not `.` or `..`.
This is exactly what the external directory walk produces for the
components of a `strip_prefix` result. -/
def cleanComponent (c : List Nat) : Prop :=
  c ≠ [] ∧ ¬ 47 ∈ c ∧ c ≠ [46] ∧ c ≠ [46, 46]

instance (c : List Nat) : Decidable (cleanComponent c) := by
  unfold cleanComponent; infer_instance

/-- A clean relative name: relative, nonempty, all components clean. -/
def cleanName (p : FsPath) : Prop :=
  p.absolute = false ∧ p.components ≠ [] ∧ ∀ c ∈ p.components, cleanComponent c

instance (p : FsPath) : Decidable (cleanName p) := by
  unfold cleanName; infer_instance

/-- A source file that the filesystem can actually produce and whose
numbers fit the archive's fixed-width fields. -/
def goodFile (f : PackFile) : Prop :=
  cleanName f.name ∧ (renderPath f.name).length ≤ BUFFER_SIZE ∧ f.content.length < 2 ^ 64

instance (f : PackFile) : Decidable (goodFile f) := by
  unfold goodFile; infer_instance

/-! ## Stream-reading lemmas -/

theorem read_exact_append (a b : List Nat) : read_exact a.length (a ++ b) = .ok (a, b) := by
  simp [read_exact, List.take_left, List.drop_left]

theorem read_exact_of_length {k : Nat} (a b : List Nat) (h : a.length = k) :
    read_exact k (a ++ b) = .ok (a, b) := by
  subst h; exact read_exact_append a b

/-- The payload loop consumes `min remaining available` bytes and leaves
the rest of the stream untouched. -/
theorem read_payload_eq (n : Nat) (s : List Nat) :
    read_payload n s = (s.take (min n s.length), s.drop (min n s.length)) := by
  induction n using Nat.strong_induction_on generalizing s with
  | _ n ih =>
    rw [read_payload]
    by_cases h : min (min n BUFFER_SIZE) s.length = 0
    · rw [dif_pos h]
      have hB : BUFFER_SIZE = 65536 := by norm_num [BUFFER_SIZE]
      rw [hB] at h
      have h0 : min n s.length = 0 := by omega
      simp [h0]
    · rw [dif_neg h]
      have hB : BUFFER_SIZE = 65536 := by norm_num [BUFFER_SIZE]
      rw [hB] at h
      have hlt : n - min (min n BUFFER_SIZE) s.length < n := by rw [hB]; omega
      rw [ih _ hlt]
      have hsum : min (min n BUFFER_SIZE) s.length
          + min (n - min (min n BUFFER_SIZE) s.length)
              (s.drop (min (min n BUFFER_SIZE) s.length)).length
          = min n s.length := by
        simp only [List.length_drop, hB]; omega
      dsimp only
      rw [← List.take_add, List.drop_drop, hsum]

/-! ## Seek-and-rewrite lemmas -/

theorem writeAt_exact (a d d' b : List Nat) (h : d.length = d'.length) :
    writeAt (a ++ d ++ b) a.length d' = a ++ d' ++ b := by
  have h1 : (a ++ d ++ b).take a.length = a := by
    rw [List.append_assoc]; exact List.take_left a (d ++ b)
  have h2 : (a ++ d ++ b).drop (a.length + d'.length) = b := by
    rw [← h, ← List.length_append a d]; exact List.drop_left (a ++ d) b
  simp only [writeAt, h1, h2]

/-! ## Block-length lemmas -/

@[simp] theorem length_metaPre (nameB : List Nat) (osize : Nat) :
    (metaPre nameB osize).length = 12 + nameB.length := by
  simp [metaPre]; omega

@[simp] theorem length_metaPatch (csize ock cck : Nat) :
    (metaPatch csize ock cck).length = 16 := by
  simp [metaPatch]

@[simp] theorem length_metaBlock (nameB : List Nat) (osize csize ock cck : Nat) :
    (metaBlock nameB osize csize ock cck).length = 28 + nameB.length := by
  simp [metaBlock]; omega

@[simp] theorem length_rawBlock (e : PackedEntry) :
    (rawBlock e).length = 28 + e.nameB.length + e.payload.length := by
  simp [rawBlock, write_metadata]

@[simp] theorem length_finalBlock (e : PackedEntry) :
    (finalBlock e).length = 28 + e.nameB.length + e.payload.length := by
  simp [finalBlock]

theorem length_rawBody_eq (es : List PackedEntry) :
    (rawBody es).length = (finalBody es).length := by
  induction es with
  | nil => rfl
  | cons e es ih => simp [rawBody, finalBody, List.flatten_cons] at *; omega

/-! ## The two-phase write protocol produces `packFinal` -/

@[simp] theorem mkEntry_nameB (codec : Codec) (pos : Nat) (f : PackFile) :
    (mkEntry codec pos f).nameB = renderPath f.name := rfl

@[simp] theorem mkEntry_osize (codec : Codec) (pos : Nat) (f : PackFile) :
    (mkEntry codec pos f).osize = f.content.length := rfl

@[simp] theorem mkEntry_payload (codec : Codec) (pos : Nat) (f : PackFile) :
    (mkEntry codec pos f).payload = codec.compress f.content := rfl

@[simp] theorem mkEntry_ock (codec : Codec) (pos : Nat) (f : PackFile) :
    (mkEntry codec pos f).ock = codec.crc f.content := rfl

@[simp] theorem mkEntry_cck (codec : Codec) (pos : Nat) (f : PackFile) :
    (mkEntry codec pos f).cck = codec.crc (codec.compress f.content) := rfl

@[simp] theorem mkEntry_position (codec : Codec) (pos : Nat) (f : PackFile) :
    (mkEntry codec pos f).position = pos := rfl

theorem process_files_ok (codec : Codec) (fs : List PackFile) :
    ∀ pos : Nat, (∀ f ∈ fs, (renderPath f.name).length ≤ BUFFER_SIZE) →
    process_files codec pos fs = .ok (rawBody (entriesOf codec pos fs), entriesOf codec pos fs) := by
  induction fs with
  | nil => intro pos _; simp [process_files, entriesOf, rawBody]
  | cons f fs ih =>
    intro pos h
    have hf : ¬ BUFFER_SIZE < (renderPath f.name).length := by
      have := h f (by simp); omega
    rw [process_files, if_neg hf, ih _ (fun g hg => h g (by simp [hg]))]
    simp [entriesOf, rawBody]

theorem entriesOf_cons (codec : Codec) (pos : Nat) (f : PackFile) (fs : List PackFile) :
    entriesOf codec pos (f :: fs)
      = mkEntry codec pos f
        :: entriesOf codec (pos + (rawBlock (mkEntry codec pos f)).length) fs := rfl

theorem rawBody_cons (e : PackedEntry) (es : List PackedEntry) :
    rawBody (e :: es) = rawBlock e ++ rawBody es := by
  simp [rawBody]

theorem finalBody_cons (e : PackedEntry) (es : List PackedEntry) :
    finalBody (e :: es) = finalBlock e ++ finalBody es := by
  simp [finalBody]

/-- The backpatch pass turns the first-pass entry bytes into the final
entry bytes, given that the bytes sit at the recorded positions. -/
theorem foldl_patchEntry_eq (codec : Codec) (fs : List PackFile) :
    ∀ (pos : Nat) (pre : List Nat), pre.length = pos →
    (entriesOf codec pos fs).foldl patchEntry (pre ++ rawBody (entriesOf codec pos fs))
      = pre ++ finalBody (entriesOf codec pos fs) := by
  induction fs with
  | nil => intro pos pre _; simp [entriesOf, rawBody, finalBody]
  | cons f fs ih =>
    intro pos pre hpre
    rw [entriesOf_cons, rawBody_cons, finalBody_cons, List.foldl_cons]
    have h1 : pre ++ (rawBlock (mkEntry codec pos f)
          ++ rawBody (entriesOf codec (pos + (rawBlock (mkEntry codec pos f)).length) fs))
        = (pre ++ metaPre (renderPath f.name) f.content.length) ++ metaPatch 0 0 0
          ++ (codec.compress f.content
              ++ rawBody (entriesOf codec (pos + (rawBlock (mkEntry codec pos f)).length) fs)) := by
      simp [rawBlock, write_metadata, metaBlock, List.append_assoc]
    have h2 : (pre ++ metaPre (renderPath f.name) f.content.length).length
        = (mkEntry codec pos f).position + 12 + (mkEntry codec pos f).nameB.length := by
      simp [hpre]; omega
    have hpatch : patchEntry (pre ++ (rawBlock (mkEntry codec pos f)
          ++ rawBody (entriesOf codec (pos + (rawBlock (mkEntry codec pos f)).length) fs)))
          (mkEntry codec pos f)
        = (pre ++ finalBlock (mkEntry codec pos f))
          ++ rawBody (entriesOf codec (pos + (rawBlock (mkEntry codec pos f)).length) fs) := by
      rw [patchEntry, h1, ← h2, writeAt_exact _ _ _ _ (by simp)]
      simp [finalBlock, metaBlock, metaPatch, List.append_assoc]
    rw [hpatch,
      ih (pos + (rawBlock (mkEntry codec pos f)).length) (pre ++ finalBlock (mkEntry codec pos f))
        (by simp [hpre]; try omega)]
    simp [List.append_assoc]

/-- The function `pack` succeeds and produces exactly the directly described archive
whenever the file count fits `u32` and no relative name overflows the
buffer bound. -/
theorem pack_eq_packFinal (codec : Codec) (files : List PackFile)
    (hcount : files.length < 2 ^ 32)
    (hname : ∀ f ∈ files, (renderPath f.name).length ≤ BUFFER_SIZE) :
    pack codec files = .ok (packFinal codec files) := by
  rw [pack, if_neg (by omega), process_files_ok codec files 18 hname]
  dsimp only
  have hhd : SIGNATURE ++ VERSION ++ u32LE files.length ++ u64LE 0
        ++ rawBody (entriesOf codec 18 files)
      = (SIGNATURE ++ VERSION ++ u32LE files.length) ++ u64LE 0
        ++ rawBody (entriesOf codec 18 files) := by
    simp [List.append_assoc]
  have hlen10 : (SIGNATURE ++ VERSION ++ u32LE files.length).length = 10 := by
    simp [SIGNATURE, VERSION]
  have hlen : (SIGNATURE ++ VERSION ++ u32LE files.length ++ u64LE 0
      ++ rawBody (entriesOf codec 18 files)).length
      = 18 + (finalBody (entriesOf codec 18 files)).length := by
    simp [SIGNATURE, VERSION, length_rawBody_eq]; omega
  rw [rewrite_temp_fields, hlen, hhd, ← hlen10,
    writeAt_exact _ _ _ _ (by simp)]
  have hh : (SIGNATURE ++ VERSION ++ u32LE files.length)
        ++ u64LE (18 + (finalBody (entriesOf codec 18 files)).length)
        ++ rawBody (entriesOf codec 18 files)
      = headerBytes files.length (18 + (finalBody (entriesOf codec 18 files)).length)
        ++ rawBody (entriesOf codec 18 files) := by
    simp [headerBytes, List.append_assoc]
  rw [hh, foldl_patchEntry_eq codec files 18 _ (by simp [headerBytes, SIGNATURE, VERSION]),
    packFinal]

/-! ## Path lemmas -/

theorem splitSep_no_sep (l : List Nat) :
    ∀ acc, ¬ 47 ∈ l → splitSep acc l = [acc.reverse ++ l] := by
  induction l with
  | nil => intro acc _; simp [splitSep]
  | cons b l ih =>
    intro acc h
    have hb : ¬ b = 47 := fun hb => h (by simp [hb])
    rw [splitSep, if_neg hb, ih (b :: acc) (fun hm => h (by simp [hm]))]
    simp

theorem splitSep_sep (c : List Nat) :
    ∀ acc rest, ¬ 47 ∈ c →
    splitSep acc (c ++ 47 :: rest) = (acc.reverse ++ c) :: splitSep [] rest := by
  induction c with
  | nil => intro acc rest _; simp [splitSep]
  | cons b c ih =>
    intro acc rest h
    have hb : ¬ b = 47 := fun hb => h (by simp [hb])
    rw [List.cons_append, splitSep, if_neg hb, ih (b :: acc) rest (fun hm => h (by simp [hm]))]
    simp

theorem splitSep_render (comps : List (List Nat)) :
    comps ≠ [] → (∀ c ∈ comps, ¬ 47 ∈ c) →
    splitSep [] (renderComponents comps) = comps := by
  induction comps with
  | nil => intro h _; exact absurd rfl h
  | cons c comps ih =>
    intro _ h
    cases comps with
    | nil =>
      show splitSep [] (renderComponents [c]) = [c]
      rw [show renderComponents [c] = c from rfl, splitSep_no_sep c [] (h c (by simp))]
      simp
    | cons c2 rest =>
      rw [show renderComponents (c :: c2 :: rest) = c ++ 47 :: renderComponents (c2 :: rest)
          from rfl,
        splitSep_sep c [] (renderComponents (c2 :: rest)) (h c (by simp)),
        ih (by simp) (fun d hd => h d (by simp [hd]))]
      simp

theorem headI_renderComponents (c : List Nat) (comps : List (List Nat)) (hc : c ≠ []) :
    (renderComponents (c :: comps)).headI = c.headI := by
  cases c with
  | nil => exact absurd rfl hc
  | cons b c' =>
    cases comps with
    | nil => rfl
    | cons c2 rest => rfl

/-- The stored bytes of a clean relative name parse back to the same
path. -/
theorem parse_render (p : FsPath) (h : cleanName p) :
    parsePath (renderPath p) = ⟨false, p.components⟩ := by
  obtain ⟨habs, hne, hcl⟩ := h
  unfold parsePath renderPath
  have hsplit : splitSep [] (renderComponents p.components) = p.components :=
    splitSep_render p.components hne (fun c hc => ((hcl c hc).2).1)
  have hfilter : (p.components.filter (fun c => c ≠ [])) = p.components := by
    rw [List.filter_eq_self]
    intro c hc
    simpa using (hcl c hc).1
  have hhead : ((renderComponents p.components).headI == 47) = false := by
    cases hcomp : p.components with
    | nil => exact absurd hcomp hne
    | cons c rest =>
      have hc := hcl c (by simp [hcomp])
      rw [headI_renderComponents c rest hc.1]
      have : c.headI ≠ 47 := by
        cases c with
        | nil => exact absurd rfl hc.1
        | cons b c' =>
          intro hb
          exact hc.2.1 (by simp [List.headI] at hb; simp [hb])
      simpa using this
  rw [hsplit, hfilter, hhead]

theorem normPush_ordinary (abs : Bool) (rstack : List (List Nat)) (c : List Nat)
    (h1 : c ≠ [46]) (h2 : c ≠ [46, 46]) : normPush abs rstack c = c :: rstack := by
  simp [normPush, h1, h2]

theorem foldl_normPush_ordinary (abs : Bool) (l : List (List Nat)) :
    ∀ rstack, (∀ c ∈ l, c ≠ [46] ∧ c ≠ [46, 46]) →
    l.foldl (normPush abs) rstack = l.reverse ++ rstack := by
  induction l with
  | nil => intro rstack _; simp
  | cons c l ih =>
    intro rstack h
    rw [List.foldl_cons, normPush_ordinary abs rstack c (h c (by simp)).1 (h c (by simp)).2,
      ih (c :: rstack) (fun d hd => h d (by simp [hd]))]
    simp

/-- Normalization is the identity on a path with no `.` or `..`
component. -/
theorem normalize_path_clean (p : FsPath)
    (h : ∀ c ∈ p.components, c ≠ [46] ∧ c ≠ [46, 46]) : normalize_path p = p := by
  unfold normalize_path
  rw [foldl_normPush_ordinary p.absolute p.components [] h]
  simp

theorem entryDest_multi (fc : Nat) (dir : FsPath) (p : FsPath) (hfc : 1 < fc)
    (hname : cleanName p) (hdir : ∀ c ∈ dir.components, c ≠ [46] ∧ c ≠ [46, 46]) :
    entryDest fc dir (renderPath p) = ⟨dir.absolute, dir.components ++ p.components⟩ := by
  unfold entryDest
  rw [if_pos hfc, parse_render p hname, joinPath]
  simp only [if_neg (by simp : ¬ (⟨false, p.components⟩ : FsPath).absolute = true)]
  apply normalize_path_clean
  intro c hc
  rcases List.mem_append.mp hc with hcd | hcn
  · exact hdir c hcd
  · have := hname.2.2 c hcn
    exact ⟨this.2.2.1, this.2.2.2⟩

theorem entryDest_single (fc : Nat) (dir : FsPath) (p : FsPath) (hfc : ¬ 1 < fc)
    (hname : cleanName p) :
    entryDest fc dir (renderPath p) = ⟨false, p.components⟩ := by
  unfold entryDest
  rw [if_neg hfc, parse_render p hname]
  apply normalize_path_clean
  intro c hc
  have := hname.2.2 c hc
  exact ⟨this.2.2.1, this.2.2.2⟩

/-! ## Reading back one entry's metadata -/

theorem from_archive_metaBlock (nameB : List Nat) (osize csize ock cck : Nat) (rest : List Nat)
    (h0 : nameB ≠ []) (hb : nameB.length ≤ BUFFER_SIZE)
    (hos : osize < 2 ^ 64) (hcs : csize < 2 ^ 64) (hoc : ock < 2 ^ 32) (hcc : cck < 2 ^ 32) :
    from_archive (metaBlock nameB osize csize ock cck ++ rest)
      = .ok (⟨nameB, osize, csize, ock, cck⟩, rest) := by
  have hname32 : nameB.length < 2 ^ 32 := by
    have : BUFFER_SIZE < 2 ^ 32 := by norm_num [BUFFER_SIZE]
    omega
  have hassoc : metaBlock nameB osize csize ock cck ++ rest
      = u32LE nameB.length
        ++ (nameB ++ (u64LE osize ++ (u64LE csize ++ (u32LE ock ++ (u32LE cck ++ rest))))) := by
    simp [metaBlock, metaPre, metaPatch, List.append_assoc]
  rw [from_archive, hassoc, read_exact_of_length (u32LE nameB.length) _ (by simp)]
  dsimp only
  rw [fromLE_u32LE hname32, if_neg (by omega), if_neg (by simp [h0]),
    read_exact_of_length nameB _ rfl]
  dsimp only
  rw [read_exact_of_length (u64LE osize) _ (by simp)]
  dsimp only
  rw [read_exact_of_length (u64LE csize) _ (by simp)]
  dsimp only
  rw [read_exact_of_length (u32LE ock) _ (by simp)]
  dsimp only
  rw [read_exact_of_length (u32LE cck) _ (by simp)]
  dsimp only
  rw [fromLE_u64LE hos, fromLE_u64LE hcs, fromLE_u32LE hoc, fromLE_u32LE hcc]

/-! ## The unpack loop on a packed archive -/

theorem renderPath_ne_nil (p : FsPath) (h : cleanName p) : renderPath p ≠ [] := by
  obtain ⟨_, hne, hcl⟩ := h
  unfold renderPath
  cases hc : p.components with
  | nil => exact absurd hc hne
  | cons c rest =>
    have hcc := hcl c (by simp [hc])
    cases rest with
    | nil => simpa [renderComponents] using hcc.1
    | cons c2 r2 =>
      cases c with
      | nil => exact absurd rfl hcc.1
      | cons b c' => simp [renderComponents]

/-- The payload loop on a stream that starts with exactly the declared
payload consumes it entirely and nothing more. -/
theorem read_payload_exact (p r : List Nat) : read_payload p.length (p ++ r) = (p, r) := by
  rw [read_payload_eq]
  have hmin : min p.length (p ++ r).length = p.length := by simp
  rw [hmin, List.take_left, List.drop_left]

/-- Running the extraction loop over the final bytes of packed entries
extracts every file, in order, with its original content, and succeeds;
trailing bytes (the index array) are never touched. -/
theorem unpack_files_packFinal (codec : Codec) (hcodec : goodCodec codec)
    (fs : List PackFile) :
    ∀ (pos fc : Nat) (dir : FsPath) (extra : List Nat),
    (∀ f ∈ fs, goodFile f) →
    (∀ f ∈ fs, (codec.compress f.content).length < 2 ^ 64) →
    unpack_files codec fc dir fs.length (finalBody (entriesOf codec pos fs) ++ extra)
      = (fs.map (fun f => (entryDest fc dir (renderPath f.name), f.content)), none) := by
  induction fs with
  | nil => intro pos fc dir extra _ _; simp [entriesOf, finalBody, rawBody, unpack_files]
  | cons f fs ih =>
    intro pos fc dir extra hg hcs
    obtain ⟨hclean, hblen, hosize⟩ := hg f (by simp)
    rw [entriesOf_cons, finalBody_cons]
    have hstream : finalBlock (mkEntry codec pos f)
          ++ finalBody (entriesOf codec (pos + (rawBlock (mkEntry codec pos f)).length) fs)
          ++ extra
        = metaBlock (renderPath f.name) f.content.length (codec.compress f.content).length
            (codec.crc f.content) (codec.crc (codec.compress f.content))
          ++ (codec.compress f.content
              ++ (finalBody (entriesOf codec (pos + (rawBlock (mkEntry codec pos f)).length) fs)
                  ++ extra)) := by
      simp [finalBlock, List.append_assoc]
    rw [List.length_cons, hstream, unpack_files,
      from_archive_metaBlock _ _ _ _ _ _ (renderPath_ne_nil f.name hclean) hblen hosize
        (hcs f (by simp)) (hcodec.2 f.content) (hcodec.2 (codec.compress f.content))]
    dsimp only
    rw [read_payload_exact]
    dsimp only
    rw [hcodec.1 f.content, if_neg (fun hh => hh rfl), if_neg (fun hh => hh rfl),
      if_neg (fun hh => hh rfl),
      ih (pos + (rawBlock (mkEntry codec pos f)).length) fc dir extra
        (fun g hgm => hg g (by simp [hgm])) (fun g hgm => hcs g (by simp [hgm]))]
    simp

theorem validate_archive_ok (rest : List Nat) :
    validate_archive (SIGNATURE ++ (VERSION ++ rest)) = .ok rest := by
  rw [validate_archive, read_exact_of_length SIGNATURE _ (by simp [SIGNATURE])]
  dsimp only
  rw [if_neg (fun hh => hh rfl), read_exact_of_length VERSION _ (by simp [VERSION])]
  dsimp only
  rw [if_neg (fun hh => hh rfl)]

/-- Unpacking an archive produced by `pack` succeeds and writes every
file, in order, with its original content, at the destination the
file-count rule selects. -/
theorem unpack_packFinal (codec : Codec) (files : List PackFile) (stem : List Nat)
    (target : FsPath) (hcodec : goodCodec codec)
    (hfiles : ∀ f ∈ files, goodFile f)
    (hcs : ∀ f ∈ files, (codec.compress f.content).length < 2 ^ 64)
    (hcount : files.length < 2 ^ 32) :
    unpack codec stem target (packFinal codec files)
      = (files.map (fun f =>
          (entryDest files.length
            (if 1 < files.length then joinPath (normalize_path target) ⟨false, [stem]⟩
              else normalize_path target)
            (renderPath f.name), f.content)), none) := by
  have hshape : packFinal codec files
      = SIGNATURE ++ (VERSION ++ (u32LE files.length
          ++ (u64LE (18 + (finalBody (entriesOf codec 18 files)).length)
              ++ (finalBody (entriesOf codec 18 files)
                  ++ write_index_array (entriesOf codec 18 files))))) := by
    simp [packFinal, headerBytes, List.append_assoc]
  rw [unpack, hshape, validate_archive_ok]
  dsimp only
  rw [read_exact_of_length (u32LE files.length) _ (by simp)]
  dsimp only
  rw [read_exact_of_length (u64LE (18 + (finalBody (entriesOf codec 18 files)).length)) _
    (by simp)]
  dsimp only
  rw [fromLE_u32LE hcount,
    unpack_files_packFinal codec hcodec files 18 files.length _ _ hfiles hcs]

/-- C1 — Round trip: packing any list of source files (arbitrary byte
content, empty files included) and unpacking the resulting archive
reproduces every file byte-identical, under its original relative name
below the source root (the stored relative name is a suffix of the
written destination path). -/
theorem C1_round_trip (codec : Codec) (files : List PackFile) (stem : List Nat)
    (target : FsPath) (hcodec : goodCodec codec)
    (hfiles : ∀ f ∈ files, goodFile f)
    (hcs : ∀ f ∈ files, (codec.compress f.content).length < 2 ^ 64)
    (hcount : files.length < 2 ^ 32)
    (hstem : stem ≠ [46] ∧ stem ≠ [46, 46])
    (htarget : ∀ c ∈ target.components, c ≠ [46] ∧ c ≠ [46, 46]) :
    ∃ out, pack codec files = .ok out ∧
      (unpack codec stem target out).2 = none ∧
      List.Forall₂ (fun (f : PackFile) (w : FsPath × List Nat) =>
          w.2 = f.content ∧ f.name.components <:+ w.1.components)
        files (unpack codec stem target out).1 := by
  refine ⟨packFinal codec files,
    pack_eq_packFinal codec files hcount (fun f hf => (hfiles f hf).2.1), ?_, ?_⟩
  · rw [unpack_packFinal codec files stem target hcodec hfiles hcs hcount]
  · rw [unpack_packFinal codec files stem target hcodec hfiles hcs hcount]
    rw [List.forall₂_map_right_iff]
    rw [List.forall₂_same]
    intro f hf
    refine ⟨rfl, ?_⟩
    by_cases hn : 1 < files.length
    case pos =>
      have hdirclean :
          ∀ c ∈ (joinPath (normalize_path target) ⟨false, [stem]⟩).components,
            c ≠ [46] ∧ c ≠ [46, 46] := by
        intro c hc
        rw [normalize_path_clean target htarget] at hc
        simp only [joinPath, if_neg (by simp : ¬ ((⟨false, [stem]⟩ : FsPath).absolute = true))]
          at hc
        rcases List.mem_append.mp hc with hcd | hcn
        · exact htarget c hcd
        · simp at hcn
          rw [hcn]
          exact hstem
      rw [if_pos hn, entryDest_multi files.length _ f.name hn (hfiles f hf).1 hdirclean]
      exact List.suffix_append _ _
    case neg =>
      rw [if_neg hn, entryDest_single files.length _ f.name hn (hfiles f hf).1]

/-! ## A concrete codec and source files for witnesses -/

/-- A concrete stand-in for the opaque compression/checksum collaborator:
identity compression and a simple 32-bit rolling sum, satisfying
`goodCodec`. -/
def ccodec : Codec :=
  ⟨fun l => l, fun l => l, fun l => (l.sum + l.length) % 2 ^ 32⟩

theorem goodCodec_ccodec : goodCodec ccodec :=
  ⟨fun _ => rfl, fun x => Nat.mod_lt _ (by norm_num)⟩

/-- Two concrete source files: `a` with bytes `hi` and `s/b` empty. -/
def demoFiles : List PackFile :=
  [⟨⟨false, [[97]]⟩, [104, 105]⟩, ⟨⟨false, [[115], [98]]⟩, []⟩]

theorem C1_round_trip_witness :
    ∃ out, pack ccodec demoFiles = .ok out ∧
      (unpack ccodec [100] ⟨false, [[116]]⟩ out).2 = none ∧
      List.Forall₂ (fun (f : PackFile) (w : FsPath × List Nat) =>
          w.2 = f.content ∧ f.name.components <:+ w.1.components)
        demoFiles (unpack ccodec [100] ⟨false, [[116]]⟩ out).1 :=
  C1_round_trip ccodec demoFiles [100] ⟨false, [[116]]⟩ goodCodec_ccodec
    (by decide) (by decide) (by decide) (by decide) (by decide)

/-! ## C8 — payload read budget -/

/-- C8 — Payload read budget: the decompression loop consumes exactly the
declared compressed size when the payload is present (never touching the
bytes of the next entry), and never more than the declared size on any
stream. -/
theorem C8_payload_budget (n : Nat) (p r s : List Nat) (h : p.length = n) :
    read_payload n (p ++ r) = (p, r) ∧ (read_payload n s).1.length ≤ n := by
  constructor
  · rw [← h]
    exact read_payload_exact p r
  · rw [read_payload_eq]
    simp

theorem C8_payload_budget_witness :
    read_payload 3 ([7, 8, 9] ++ [1, 2]) = ([7, 8, 9], [1, 2]) ∧
      (read_payload 3 [4, 4, 4, 4, 4]).1.length ≤ 3 :=
  C8_payload_budget 3 [7, 8, 9] [1, 2] [4, 4, 4, 4, 4] (by decide)

/-! ## C10 — the tee-writer edge case -/

theorem runWrites_hashed (bufs : List (List Nat)) :
    ∀ w : HasherWriter, (runWrites w bufs).hashed = w.hashed ++ bufs.flatten := by
  induction bufs with
  | nil => intro w; simp [runWrites]
  | cons b bufs ih =>
    intro w
    show (runWrites ((w.write b).2) bufs).hashed = _
    rw [ih]
    simp [HasherWriter.write]

/-- C10 — Tee-writer edge case: a `HasherWriter::write` call hashes the
whole input buffer before forwarding and returns whatever count the sink
accepted, so over a run of raw writes the accumulated checksum is the
CRC32 of the concatenation of the full input slices — even when a partial
sink write means the forwarded bytes are a strict prefix (witnessed by a
sink that accepts one byte of a two-byte buffer). -/
theorem C10_tee_writer :
    (∀ (w : HasherWriter) (buf : List Nat),
        (w.write buf).1 = (sinkWrite w.sink buf).1
          ∧ (w.write buf).2.hashed = w.hashed ++ buf) ∧
    (∀ (caps : List Nat) (bufs : List (List Nat)) (codec : Codec),
        (runWrites (initHW caps) bufs).hashed = bufs.flatten
          ∧ HasherWriter.sum codec (runWrites (initHW caps) bufs) = codec.crc bufs.flatten) ∧
    (runWrites (initHW [1]) [[7, 8]]).sink.received = [7] ∧
    (runWrites (initHW [1]) [[7, 8]]).hashed = [7, 8] := by
  refine ⟨fun w buf => ⟨rfl, rfl⟩, fun caps bufs codec => ?_, by decide, by decide⟩
  have hh : (runWrites (initHW caps) bufs).hashed = bufs.flatten := by
    rw [runWrites_hashed bufs (initHW caps)]
    simp [initHW]
  exact ⟨hh, by rw [HasherWriter.sum, hh]⟩

/-! ## C5 — header rejection -/

/-- C5 — Header rejection: an input whose first four bytes differ from
the magic signature is rejected by `unpack` with an error before any
entry metadata or payload is read (the remainder of the stream is
arbitrary and never examined, and no file is written). -/
theorem C5_header_rejection (codec : Codec) (stem : List Nat) (target : FsPath)
    (sig rest : List Nat) (h4 : sig.length = 4) (hne : sig ≠ SIGNATURE) :
    unpack codec stem target (sig ++ rest) = ([], some (.Path corruptTypeMsg)) := by
  rw [unpack, validate_archive, read_exact_of_length sig _ h4]
  dsimp only
  rw [if_pos hne]

theorem C5_header_rejection_witness :
    unpack ccodec [] ⟨false, []⟩ ([0, 0, 0, 0] ++ [9, 9]) = ([], some (.Path corruptTypeMsg)) :=
  C5_header_rejection ccodec [] ⟨false, []⟩ [0, 0, 0, 0] [9, 9] (by decide) (by decide)

/-! ## C6 — version gate -/

/-- True exactly when an error value is `UnsupportedVersion`. -/
def isUnsupportedVersionError : Option ArchiveError → Bool
  | some (.UnsupportedVersion _) => true
  | _ => false

/-- C6 counterexample: on an archive whose major version byte differs from
the supported one, `unpack` rejects — but with `ArchiveError::Path`
(the corrupted-or-incorrect-type message of `validate_archive`), not with
`UnsupportedVersion` as the claim states; the `UnsupportedVersion` variant
declared in `error.rs` is never produced. -/
theorem C6_version_gate_cex :
    (unpack ccodec [] ⟨false, []⟩ (SIGNATURE ++ [7, 0])).2 = some (.Path corruptTypeMsg) ∧
      isUnsupportedVersionError (unpack ccodec [] ⟨false, []⟩ (SIGNATURE ++ [7, 0])).2
        = false := by
  decide

/-- C6 amended — Version gate: an archive whose stored major version byte
differs from the supported major version is rejected without reading any
entry, with a `Path` error carrying the corrupted-or-incorrect-type
message (not with `UnsupportedVersion`, which the code never constructs). -/
theorem C6_version_gate_amended (codec : Codec) (stem : List Nat) (target : FsPath)
    (a b : Nat) (rest : List Nat) (h : a ≠ VERSION.headI) :
    unpack codec stem target (SIGNATURE ++ a :: b :: rest)
      = ([], some (.Path corruptTypeMsg)) := by
  rw [unpack, validate_archive, read_exact_of_length SIGNATURE _ (by simp [SIGNATURE])]
  dsimp only
  rw [if_neg (fun hh => hh rfl),
    show (a :: b :: rest : List Nat) = [a, b] ++ rest from rfl,
    read_exact_of_length [a, b] _ (by simp)]
  dsimp only
  rw [show ([a, b] : List Nat).headI = a from rfl, if_pos h]

theorem C6_version_gate_witness :
    unpack ccodec [] ⟨false, []⟩ (SIGNATURE ++ 9 :: 0 :: [1, 2, 3])
      = ([], some (.Path corruptTypeMsg)) :=
  C6_version_gate_amended ccodec [] ⟨false, []⟩ 9 0 [1, 2, 3] (by decide)

/-! ## C3 — corruption abort -/

/-- C3 — Corruption abort: whenever the extraction loop meets an entry
whose decompressed checksum, compressed checksum, or decompressed byte
count disagrees with the stored metadata, it stops with a
`CorruptedArchive` error right after writing that entry's file: the
result is the same for every remaining entry count `k` and every
continuation `rest` of the stream, so no subsequent entry is processed. -/
theorem C3_corruption_abort (codec : Codec) (fc : Nat) (dir : FsPath)
    (nameB : List Nat) (osize ock cck : Nat) (p : List Nat) (k : Nat) (rest : List Nat)
    (h0 : nameB ≠ []) (hb : nameB.length ≤ BUFFER_SIZE)
    (hos : osize < 2 ^ 64) (hp : p.length < 2 ^ 64)
    (hoc : ock < 2 ^ 32) (hcc : cck < 2 ^ 32)
    (hmis : codec.crc (codec.decompress p) ≠ ock ∨ codec.crc p ≠ cck
      ∨ osize ≠ (codec.decompress p).length) :
    ∃ m, unpack_files codec fc dir (k + 1)
        (metaBlock nameB osize p.length ock cck ++ (p ++ rest))
      = ([(entryDest fc dir nameB, codec.decompress p)], some (.CorruptedArchive m)) := by
  rw [unpack_files,
    from_archive_metaBlock nameB osize p.length ock cck (p ++ rest) h0 hb hos hp hoc hcc]
  dsimp only
  rw [read_payload_exact]
  dsimp only
  by_cases h1 : codec.crc (codec.decompress p) ≠ ock
  · exact ⟨checksumErrMsg, by rw [if_pos h1]⟩
  · by_cases h2 : codec.crc p ≠ cck
    · exact ⟨checksumErrMsg, by rw [if_neg h1, if_pos h2]⟩
    · have h3 : osize ≠ (codec.decompress p).length := by tauto
      exact ⟨sizeErrMsg, by rw [if_neg h1, if_neg h2, if_pos h3]⟩

theorem C3_corruption_abort_witness :
    ∃ m, unpack_files ccodec 1 ⟨false, []⟩ 1
        (metaBlock [97] 1 1 0 0 ++ ([5] ++ [9, 9, 9]))
      = ([(entryDest 1 ⟨false, []⟩ [97], ccodec.decompress [5])],
          some (.CorruptedArchive m)) :=
  C3_corruption_abort ccodec 1 ⟨false, []⟩ [97] 1 0 0 [5] 0 [9, 9, 9]
    (by decide) (by norm_num [BUFFER_SIZE]) (by norm_num) (by decide) (by norm_num)
    (by norm_num) (by decide)

/-! ## C9 — name length bound -/

theorem process_files_overflow (codec : Codec) (fs : List PackFile) :
    ∀ pos, (∃ f ∈ fs, BUFFER_SIZE < (renderPath f.name).length) →
    ∃ m, process_files codec pos fs = .error (.BufferOverflow m) ∧ BUFFER_SIZE < m := by
  induction fs with
  | nil =>
    intro pos h
    rcases h with ⟨f, hf, _⟩
    simp at hf
  | cons f fs ih =>
    intro pos h
    by_cases hf : BUFFER_SIZE < (renderPath f.name).length
    · exact ⟨(renderPath f.name).length, by rw [process_files, if_pos hf], hf⟩
    · rcases h with ⟨g, hg, hover⟩
      rcases List.mem_cons.mp hg with hgf | hgtail
      · rw [hgf] at hover
        exact absurd hover hf
      · obtain ⟨m, hm, hlt⟩ :=
          ih (pos + (rawBlock (mkEntry codec pos f)).length) ⟨g, hgtail, hover⟩
        refine ⟨m, ?_, hlt⟩
        rw [process_files, if_neg hf, hm]

theorem from_archive_overflow (n : Nat) (rest : List Nat)
    (hn : BUFFER_SIZE < n) (hn32 : n < 2 ^ 32) :
    from_archive (u32LE n ++ rest) = .error (.BufferOverflow n) := by
  rw [from_archive, read_exact_of_length (u32LE n) _ (by simp)]
  dsimp only
  rw [fromLE_u32LE hn32, if_pos hn]

/-- C9 — Name bound: (pack side) if any enumerated file's relative name
is longer than the fixed buffer, `pack` fails with `BufferOverflow`
carrying an over-bound length rather than truncating; (unpack side) an
entry declaring a name length beyond the buffer bound makes `unpack` fail
with `BufferOverflow` for that declared length, writing nothing. -/
theorem C9_name_bound :
    (∀ (codec : Codec) (files : List PackFile),
        files.length < 2 ^ 32 →
        (∃ f ∈ files, BUFFER_SIZE < (renderPath f.name).length) →
        ∃ m, pack codec files = .error (.BufferOverflow m) ∧ BUFFER_SIZE < m) ∧
    (∀ (codec : Codec) (stem : List Nat) (target : FsPath) (idx n : Nat) (rest : List Nat),
        BUFFER_SIZE < n → n < 2 ^ 32 →
        unpack codec stem target
            (SIGNATURE ++ (VERSION ++ (u32LE 1 ++ (u64LE idx ++ (u32LE n ++ rest)))))
          = ([], some (.BufferOverflow n))) := by
  constructor
  · intro codec files hcount hover
    obtain ⟨m, hm, hlt⟩ := process_files_overflow codec files 18 hover
    refine ⟨m, ?_, hlt⟩
    rw [pack, if_neg (by omega), hm]
  · intro codec stem target idx n rest hn hn32
    rw [unpack, validate_archive_ok]
    dsimp only
    rw [read_exact_of_length (u32LE 1) _ (by simp)]
    dsimp only
    rw [read_exact_of_length (u64LE idx) _ (by simp)]
    dsimp only
    rw [fromLE_u32LE (by norm_num), unpack_files, from_archive_overflow n rest hn hn32]

/-- A source file whose single-component relative name is 65537 bytes
long — one byte over the fixed buffer. -/
def bigFile : PackFile := ⟨⟨false, [List.replicate 65537 101]⟩, []⟩

theorem C9_name_bound_witness :
    (∃ m, pack ccodec [bigFile] = .error (.BufferOverflow m) ∧ BUFFER_SIZE < m) ∧
      unpack ccodec [] ⟨false, []⟩
          (SIGNATURE ++ (VERSION ++ (u32LE 1 ++ (u64LE 0 ++ (u32LE 70000 ++ [])))))
        = ([], some (.BufferOverflow 70000)) :=
  ⟨C9_name_bound.1 ccodec [bigFile] (by norm_num)
      ⟨bigFile, by simp,
        by rw [show renderPath bigFile.name = List.replicate 65537 101 from rfl,
            List.length_replicate]; norm_num [BUFFER_SIZE]⟩,
    C9_name_bound.2 ccodec [] ⟨false, []⟩ 0 70000 [] (by norm_num [BUFFER_SIZE]) (by norm_num)⟩

/-! ## C2 — directory traversal -/

@[simp] theorem read_payload_zero (s : List Nat) : read_payload 0 s = ([], s) := by
  rw [read_payload_eq]
  simp

/-- C2 — Traversal: `unpack` accepts an entry whose stored name is
`../e` without any error and writes it at the normalized path `../e`,
which starts with a `..` component and therefore lies outside every
destination root — the `..` is resolved silently by `normalize_path`
(which has no error channel; see `unpack.rs` line 88), never rejected.
This exhibits the code-level violation of the claim. -/
theorem C2_traversal_escape :
    unpack ccodec [115] ⟨false, [[100]]⟩
        (SIGNATURE ++ (VERSION ++ (u32LE 1 ++ (u64LE 0
          ++ (metaBlock [46, 46, 47, 101] 0 0 0 0 ++ [])))))
      = ([(⟨false, [[46, 46], [101]]⟩, [])], none) := by
  rw [unpack, validate_archive_ok]
  dsimp only
  rw [read_exact_of_length (u32LE 1) _ (by simp)]
  dsimp only
  rw [read_exact_of_length (u64LE 0) _ (by simp)]
  dsimp only
  rw [fromLE_u32LE (by norm_num), unpack_files,
    from_archive_metaBlock [46, 46, 47, 101] 0 0 0 0 [] (by decide)
      (by norm_num [BUFFER_SIZE]) (by norm_num) (by norm_num) (by norm_num) (by norm_num)]
  dsimp only
  rw [read_payload_zero]
  dsimp only
  rw [if_neg (by decide), if_neg (by decide), if_neg (by decide), unpack_files]
  dsimp only
  decide

/-! ## C4 — extraction-root placement -/

/-- C4 counterexample: a single-entry archive (entry name `a`, empty
content) unpacked with destination directory `d` writes the file at path
`a` — `PathBuf::from(&inner_file.name)`, resolved against the process
working directory — and not at `d/a` as the claim requires; the
destination is ignored when the file count is 1. -/
theorem C4_extraction_root_cex :
    unpack ccodec [115] ⟨false, [[100]]⟩
        (SIGNATURE ++ (VERSION ++ (u32LE 1 ++ (u64LE 0
          ++ (metaBlock [97] 0 0 0 0 ++ [])))))
        = ([(⟨false, [[97]]⟩, [])], none)
      ∧ (⟨false, [[97]]⟩ : FsPath) ≠ ⟨false, [[100], [97]]⟩ := by
  refine ⟨?_, by decide⟩
  rw [unpack, validate_archive_ok]
  dsimp only
  rw [read_exact_of_length (u32LE 1) _ (by simp)]
  dsimp only
  rw [read_exact_of_length (u64LE 0) _ (by simp)]
  dsimp only
  rw [fromLE_u32LE (by norm_num), unpack_files,
    from_archive_metaBlock [97] 0 0 0 0 [] (by decide)
      (by norm_num [BUFFER_SIZE]) (by norm_num) (by norm_num) (by norm_num) (by norm_num)]
  dsimp only
  rw [read_payload_zero]
  dsimp only
  rw [if_neg (by decide), if_neg (by decide), if_neg (by decide), unpack_files]
  dsimp only
  decide

theorem dirPath_clean (stem : List Nat) (target : FsPath)
    (hs1 : stem ≠ [46]) (hs2 : stem ≠ [46, 46])
    (htarget : ∀ c ∈ target.components, c ≠ [46] ∧ c ≠ [46, 46]) :
    ∀ c ∈ (joinPath (normalize_path target) ⟨false, [stem]⟩).components,
      c ≠ [46] ∧ c ≠ [46, 46] := by
  intro c hc
  rw [normalize_path_clean target htarget] at hc
  simp only [joinPath, if_neg (by simp : ¬ ((⟨false, [stem]⟩ : FsPath).absolute = true))] at hc
  rcases List.mem_append.mp hc with hcd | hcn
  · exact htarget c hcd
  · simp at hcn
    rw [hcn]
    exact ⟨hs1, hs2⟩

/-- C4 amended — Extraction-root placement: when the archive's file count
exceeds one, every entry is extracted under `destination/stem/`; when the
file count equals one, the single entry is written at its stored name
taken as a path on its own (resolved against the process working
directory), and the destination directory and archive stem are ignored. -/
theorem C4_extraction_root_amended :
    (∀ (codec : Codec) (stem : List Nat) (target : FsPath) (f : PackFile),
        goodCodec codec → goodFile f → (codec.compress f.content).length < 2 ^ 64 →
        unpack codec stem target (packFinal codec [f])
          = ([(⟨false, f.name.components⟩, f.content)], none)) ∧
    (∀ (codec : Codec) (stem : List Nat) (target : FsPath) (files : List PackFile),
        goodCodec codec → (∀ f ∈ files, goodFile f) →
        (∀ f ∈ files, (codec.compress f.content).length < 2 ^ 64) →
        1 < files.length → files.length < 2 ^ 32 →
        stem ≠ [46] → stem ≠ [46, 46] →
        (∀ c ∈ target.components, c ≠ [46] ∧ c ≠ [46, 46]) →
        unpack codec stem target (packFinal codec files)
          = (files.map (fun f =>
              (⟨target.absolute, target.components ++ stem :: f.name.components⟩,
                f.content)), none)) := by
  constructor
  · intro codec stem target f hcodec hgf hcs
    rw [unpack_packFinal codec [f] stem target hcodec (by simpa using hgf)
      (by simpa using hcs) (by norm_num)]
    simp only [List.map_cons, List.map_nil, List.length_cons, List.length_nil]
    rw [if_neg (by norm_num), entryDest_single 1 _ f.name (by norm_num) hgf.1]
  · intro codec stem target files hcodec hgf hcs hn hcount hs1 hs2 htarget
    rw [unpack_packFinal codec files stem target hcodec hgf hcs hcount]
    have hmap : files.map (fun f =>
          (entryDest files.length
            (if 1 < files.length then joinPath (normalize_path target) ⟨false, [stem]⟩
              else normalize_path target) (renderPath f.name), f.content))
        = files.map (fun f =>
          (⟨target.absolute, target.components ++ stem :: f.name.components⟩,
            f.content)) := by
      apply List.map_congr_left
      intro f hf
      rw [if_pos hn,
        entryDest_multi files.length _ f.name hn (hgf f hf).1
          (dirPath_clean stem target hs1 hs2 htarget)]
      simp [joinPath, normalize_path_clean target htarget,
        if_neg (by simp : ¬ ((⟨false, [stem]⟩ : FsPath).absolute = true))]
    rw [hmap]

theorem C4_extraction_root_witness :
    unpack ccodec [120] ⟨false, [[100]]⟩ (packFinal ccodec [⟨⟨false, [[97]]⟩, [1, 2]⟩])
        = ([(⟨false, [[97]]⟩, [1, 2])], none) ∧
      unpack ccodec [120] ⟨false, [[100]]⟩ (packFinal ccodec demoFiles)
        = (demoFiles.map (fun f =>
            (⟨false, [[100]] ++ [120] :: f.name.components⟩, f.content)), none) :=
  ⟨C4_extraction_root_amended.1 ccodec [120] ⟨false, [[100]]⟩ ⟨⟨false, [[97]]⟩, [1, 2]⟩
      goodCodec_ccodec (by decide) (by decide),
    C4_extraction_root_amended.2 ccodec [120] ⟨false, [[100]]⟩ demoFiles goodCodec_ccodec
      (by decide) (by decide) (by decide) (by decide) (by decide) (by decide) (by decide)⟩

/-! ## C7 — index invariant -/

theorem length_entriesOf (codec : Codec) (fs : List PackFile) :
    ∀ pos, (entriesOf codec pos fs).length = fs.length := by
  induction fs with
  | nil => intro pos; rfl
  | cons f fs ih => intro pos; rw [entriesOf_cons]; simp [ih]

theorem length_write_index_array (es : List PackedEntry) :
    (write_index_array es).length = 8 * es.length := by
  induction es with
  | nil => rfl
  | cons e es ih =>
    simp only [write_index_array, List.map_cons, List.flatten_cons, List.length_append,
      length_u64LE, List.length_cons] at *
    omega

theorem write_index_array_get (es : List PackedEntry) :
    ∀ i (hi : i < es.length),
      ((write_index_array es).drop (8 * i)).take 8 = u64LE ((es.get ⟨i, hi⟩).position) := by
  induction es with
  | nil => intro i hi; simp at hi
  | cons e es ih =>
    intro i hi
    cases i with
    | zero =>
      simp only [write_index_array, List.map_cons, List.flatten_cons, Nat.mul_zero,
        List.drop_zero]
      rw [show (8 : Nat) = (u64LE e.position).length from (length_u64LE e.position).symm,
        List.take_left]
      rfl
    | succ j =>
      have hj : j < es.length := by simpa using hi
      have hdrop : (write_index_array (e :: es)).drop (8 * (j + 1))
          = (write_index_array es).drop (8 * j) := by
        simp only [write_index_array, List.map_cons, List.flatten_cons]
        rw [show 8 * (j + 1) = (u64LE e.position).length + 8 * j by simp; omega,
          List.drop_append]
      rw [hdrop, ih j hj]
      rfl

theorem take_len_append (a b : List Nat) (n : Nat) (h : a.length = n) : (a ++ b).take n = a := by
  subst h
  exact List.take_left a b

theorem drop_len_append (a b : List Nat) (n : Nat) (h : a.length = n) : (a ++ b).drop n = b := by
  subst h
  exact List.drop_left a b

theorem final_block_at (codec : Codec) (fs : List PackFile) :
    ∀ (pos : Nat) (pre extra : List Nat), pre.length = pos →
    ∀ i (hi : i < (entriesOf codec pos fs).length),
      ((pre ++ finalBody (entriesOf codec pos fs) ++ extra).drop
          (((entriesOf codec pos fs).get ⟨i, hi⟩).position)).take
          (finalBlock ((entriesOf codec pos fs).get ⟨i, hi⟩)).length
        = finalBlock ((entriesOf codec pos fs).get ⟨i, hi⟩) := by
  induction fs with
  | nil => intro pos pre extra hpre i hi; simp [entriesOf] at hi
  | cons f fs ih =>
    intro pos pre extra hpre i hi
    cases i with
    | zero =>
      show ((pre ++ finalBody (entriesOf codec pos (f :: fs)) ++ extra).drop
          ((mkEntry codec pos f).position)).take (finalBlock (mkEntry codec pos f)).length
          = finalBlock (mkEntry codec pos f)
      have hsh : pre ++ finalBody (entriesOf codec pos (f :: fs)) ++ extra
          = pre ++ (finalBlock (mkEntry codec pos f)
            ++ (finalBody (entriesOf codec (pos + (rawBlock (mkEntry codec pos f)).length) fs)
                ++ extra)) := by
        rw [entriesOf_cons, finalBody_cons]
        simp [List.append_assoc]
      rw [mkEntry_position, hsh, drop_len_append _ _ pos hpre,
        take_len_append _ _ _ rfl]
    | succ j =>
      have hj : j < (entriesOf codec (pos + (rawBlock (mkEntry codec pos f)).length) fs).length := by
        rw [entriesOf_cons] at hi
        simpa using hi
      have hget : (entriesOf codec pos (f :: fs)).get ⟨j + 1, hi⟩
          = (entriesOf codec (pos + (rawBlock (mkEntry codec pos f)).length) fs).get ⟨j, hj⟩ :=
        rfl
      rw [hget, entriesOf_cons, finalBody_cons]
      have hsh : pre ++ (finalBlock (mkEntry codec pos f)
            ++ finalBody (entriesOf codec (pos + (rawBlock (mkEntry codec pos f)).length) fs))
            ++ extra
          = (pre ++ finalBlock (mkEntry codec pos f))
            ++ finalBody (entriesOf codec (pos + (rawBlock (mkEntry codec pos f)).length) fs)
            ++ extra := by
        simp [List.append_assoc]
      rw [hsh]
      exact ih (pos + (rawBlock (mkEntry codec pos f)).length)
        (pre ++ finalBlock (mkEntry codec pos f)) extra (by simp [hpre]; try omega) j hj

/-- C7 — Index invariant: on every archive `pack` produces, the index
offset written into the header (bytes 10–17) equals the byte position
immediately after the last entry's compressed payload; the trailing index
array holds exactly entry-count little-endian u64 values in entry order;
and the i-th value is the byte offset at which the i-th entry's metadata
block starts in the archive. -/
theorem C7_index_invariant (codec : Codec) (files : List PackFile) (i : Nat)
    (hcount : files.length < 2 ^ 32)
    (hname : ∀ f ∈ files, (renderPath f.name).length ≤ BUFFER_SIZE)
    (hi : i < (entriesOf codec 18 files).length) :
    pack codec files = .ok (packFinal codec files) ∧
    (packFinal codec files).take 18
      = headerBytes files.length (18 + (finalBody (entriesOf codec 18 files)).length) ∧
    ((packFinal codec files).drop 10).take 8
      = u64LE (18 + (finalBody (entriesOf codec 18 files)).length) ∧
    (packFinal codec files).drop (18 + (finalBody (entriesOf codec 18 files)).length)
      = write_index_array (entriesOf codec 18 files) ∧
    (entriesOf codec 18 files).length = files.length ∧
    (write_index_array (entriesOf codec 18 files)).length = 8 * files.length ∧
    ((write_index_array (entriesOf codec 18 files)).drop (8 * i)).take 8
      = u64LE (((entriesOf codec 18 files).get ⟨i, hi⟩).position) ∧
    ((packFinal codec files).drop
          (((entriesOf codec 18 files).get ⟨i, hi⟩).position)).take
        (finalBlock ((entriesOf codec 18 files).get ⟨i, hi⟩)).length
      = finalBlock ((entriesOf codec 18 files).get ⟨i, hi⟩) := by
  have hhlen : (headerBytes files.length
      (18 + (finalBody (entriesOf codec 18 files)).length)).length = 18 := by
    simp [headerBytes, SIGNATURE, VERSION]
  refine ⟨pack_eq_packFinal codec files hcount hname, ?_, ?_, ?_, length_entriesOf codec files 18,
    by rw [length_write_index_array, length_entriesOf], write_index_array_get _ i hi, ?_⟩
  · rw [packFinal, List.append_assoc, take_len_append _ _ 18 hhlen]
  · have hsh : packFinal codec files
        = (SIGNATURE ++ VERSION ++ u32LE files.length)
          ++ (u64LE (18 + (finalBody (entriesOf codec 18 files)).length)
              ++ (finalBody (entriesOf codec 18 files)
                  ++ write_index_array (entriesOf codec 18 files))) := by
      simp [packFinal, headerBytes, List.append_assoc]
    rw [hsh, drop_len_append _ _ 10 (by simp [SIGNATURE, VERSION]),
      take_len_append _ _ 8 (by simp)]
  · rw [packFinal,
      drop_len_append _ _ (18 + (finalBody (entriesOf codec 18 files)).length)
        (by simp [hhlen])]
  · exact final_block_at codec files 18
      (headerBytes files.length (18 + (finalBody (entriesOf codec 18 files)).length))
      (write_index_array (entriesOf codec 18 files)) hhlen i hi

theorem C7_index_invariant_witness :
    pack ccodec demoFiles = .ok (packFinal ccodec demoFiles) ∧
    (packFinal ccodec demoFiles).take 18
      = headerBytes demoFiles.length (18 + (finalBody (entriesOf ccodec 18 demoFiles)).length) ∧
    ((packFinal ccodec demoFiles).drop 10).take 8
      = u64LE (18 + (finalBody (entriesOf ccodec 18 demoFiles)).length) ∧
    (packFinal ccodec demoFiles).drop
        (18 + (finalBody (entriesOf ccodec 18 demoFiles)).length)
      = write_index_array (entriesOf ccodec 18 demoFiles) ∧
    (entriesOf ccodec 18 demoFiles).length = demoFiles.length ∧
    (write_index_array (entriesOf ccodec 18 demoFiles)).length = 8 * demoFiles.length ∧
    ((write_index_array (entriesOf ccodec 18 demoFiles)).drop (8 * 1)).take 8
      = u64LE (((entriesOf ccodec 18 demoFiles).get ⟨1, by decide⟩).position) ∧
    ((packFinal ccodec demoFiles).drop
          (((entriesOf ccodec 18 demoFiles).get ⟨1, by decide⟩).position)).take
        (finalBlock ((entriesOf ccodec 18 demoFiles).get ⟨1, by decide⟩)).length
      = finalBlock ((entriesOf ccodec 18 demoFiles).get ⟨1, by decide⟩) :=
  C7_index_invariant ccodec demoFiles 1 (by decide) (by decide) (by decide)

end Sulfur
